import Mathlib

/-!
Verification of the NeuroGlyph protocol engine (`src/HiRI.py`, class
`NeuroGlyphParser` and class `ConversationEngine`) against its
natural-language specification.

Shallow embedding notes:

* Text is modelled as `List Char` (one entry per Unicode scalar value,
  matching Python's `str` indexing).  A few pictographic tokens of the
  source consist of a base character followed by the variation selector
  U+FE0F; those characters are spelled with `Char.ofNat` so the code
  point content is explicit and unambiguous.
* The token extraction of `NeuroGlyphParser.parse_message` uses
  `re.findall` with the pattern
  `([SYMS]|/\w+):\s*(.+?)(?=\n[SYMS]|/\w+:|$)` compiled with
  `re.DOTALL | re.MULTILINE`.  The functions `matchToken`, `takeValue`,
  `matchHere` and `findAllAux` below implement exactly the behaviour of
  that pattern under Python's leftmost, backtracking semantics:
  - group 1 is a single character from the symbol class, or `/` followed
    by a maximal nonempty run of word characters;
  - `\s*` is greedy; `(.+?)` is lazy, so the value extends to the first
    position where the lookahead holds;
  - under `re.MULTILINE`, `$` matches before every newline and at the end
    of the input, so the lookahead holds at end of input, before any
    newline (this subsumes the `\n[SYMS]` alternative, which therefore
    never decides anything), and at any `/word:` occurrence;
  - when `\s*` reaches the end of the input, the engine backtracks one
    whitespace character so that `(.+?)` can match it, making the value a
    single whitespace character.
* Python dictionaries are modelled as insertion-ordered association
  lists: updating an existing key replaces its value in place, a new key
  is appended (`dictInsert`).  A dict literal with duplicated keys keeps
  the first position and the last value (`buildDict`).
-/

namespace HyRI

set_option maxRecDepth 100000

/-- Whitespace characters matched by Python's `\s` on `str` inputs. -/
def isPySpace (c : Char) : Bool :=
  c = ' ' || c = '\t' || c = '\n' || c = '\r' || c = '\x0b' || c = '\x0c' ||
  c = '\x1c' || c = '\x1d' || c = '\x1e' || c = '\x1f' || c = '\x85' ||
  c = '\xa0' || c = Char.ofNat 0x1680 ||
  (Char.ofNat 0x2000 ≤ c && c ≤ Char.ofNat 0x200a) ||
  c = Char.ofNat 0x2028 || c = Char.ofNat 0x2029 ||
  c = Char.ofNat 0x202f || c = Char.ofNat 0x205f || c = Char.ofNat 0x3000

/-- Word characters matched by `\w`, restricted to ASCII
`[A-Za-z0-9_]`.  Python's `\w` on `str` is Unicode-aware (it also
matches letters such as `é`), so this definition under-approximates the
source for non-ASCII identifiers; every theorem quantifying over
arbitrary text is therefore stated so that its conclusion is insensitive
to the difference, and the round-trip hypothesis `goodValB` forbids the
`/` character in values outright, which excludes every position where an
ASCII and a Unicode `/\w+:` lookahead could disagree.  On the canonical
`/word` keys themselves (ASCII run delimited by `:`), the two readings of
`\w` coincide. -/
def isWordChar (c : Char) : Bool :=
  c.isAlpha || c.isDigit || c = '_'

/-- Base character U+1F3D4 of the pictograph written `🏔️` in the source. -/
def mountainChar : Char := Char.ofNat 0x1F3D4

/-- Base character U+1F39B of the pictograph written `🎛️` in the source. -/
def knobsChar : Char := Char.ofNat 0x1F39B

/-- Base character U+26D3 of the pictograph written `⛓️` in the source. -/
def chainsChar : Char := Char.ofNat 0x26D3

/-- Base character U+1F3DB of the pictograph written `🏛️` in the source. -/
def templeChar : Char := Char.ofNat 0x1F3DB

/-- Base character U+1F3D7 of the pictograph written `🏗️` in the source. -/
def craneChar : Char := Char.ofNat 0x1F3D7

/-- Base character U+1F441 of the pictograph written `👁️` in the source. -/
def eyeChar : Char := Char.ofNat 0x1F441

/-- Base character U+2696 of the pictograph written `⚖️` in the source. -/
def scalesChar : Char := Char.ofNat 0x2696

/-- Variation selector U+FE0F; in the source it trails several pictographs
and is (as its own code point) a member of the regex character class. -/
def vsChar : Char := Char.ofNat 0xFE0F

/-- Appends the variation selector to a base character, producing the
two-code-point strings such as `🏔️` that appear as `CORE_TOKENS` keys. -/
def withVS (c : Char) : String := String.mk [c, vsChar]

/-- Characters of the regex character class `[🚀📚🧠🎯💡📦⏰🔥🏔️🔗🌐🔄🔍🎛️⛓️📢🔧📝📊📡👥🎭🏛️📋💰🤝⚡🎨👤🌍📖🎲🌱🎵🏗️👁️✨❓🌉⚖️📄]`
of `NeuroGlyphParser.token_pattern`, in source order.  Each pictograph
written with a trailing variation selector contributes two class members:
its base character and U+FE0F. -/
def symbolClass : List Char :=
  ['🚀', '📚', '🧠', '🎯', '💡', '📦', '⏰', '🔥', mountainChar, vsChar,
   '🔗', '🌐', '🔄', '🔍', knobsChar, vsChar, chainsChar, vsChar,
   '📢', '🔧', '📝', '📊', '📡', '👥', '🎭', templeChar, vsChar,
   '📋', '💰', '🤝', '⚡', '🎨', '👤', '🌍', '📖', '🎲', '🌱', '🎵',
   craneChar, vsChar, eyeChar, vsChar, '✨', '❓', '🌉', scalesChar, vsChar,
   '📄']

/-- Key/value pairs of the `CORE_TOKENS` dict literal in source order,
including the duplicated keys `🎯`, `🔄` and `🔍`. -/
def rawCoreTokens : List (String × String) :=
  [("🚀", "/act"), ("📚", "/focus"), ("🧠", "/mind"), ("🎯", "/context"),
   ("💡", "/intent"), ("📦", "/deliverable"), ("⏰", "/timeline"),
   ("🔥", "/pulse"), (withVS mountainChar, "/gliph"), ("🔗", "/relation"),
   ("🌐", "/network"), ("🔄", "/compose"), ("🔍", "/zoom"),
   (withVS knobsChar, "/switch_context"), (withVS chainsChar, "/chain"),
   ("📢", "/echo"), ("🔧", "/resolve"), ("📝", "/note"), ("📊", "/metric"),
   ("📡", "/channel"), ("👥", "/collective"), ("🎭", "/role"),
   (withVS templeChar, "/govern"), ("📋", "/norm"), ("💰", "/resource"),
   ("🤝", "/trust"), ("🎯", "/goal"), ("⚡", "/trigger"), ("🎨", "/palette"),
   ("👤", "/character"), ("🌍", "/setting"), ("📖", "/lore"), ("🎲", "/turn"),
   ("🌱", "/seed"), ("🎵", "/motif"), (withVS craneChar, "/structure"),
   (withVS eyeChar, "/pov"), ("✨", "/flourish"),
   ("❓", "/query"), ("🔄", "/ongoing"), ("🌉", "/bridge"),
   (withVS scalesChar, "/dialectic"), ("🧠🧠", "/meta"), ("📄", "/source"),
   ("🔄", "/transform"), ("🔍", "/introspect")]

/-- Tests whether an association list has an entry for a key, as Python's
`k in d`. -/
def hasKey (m : List (String × String)) (k : String) : Bool :=
  m.any fun p => p.1 = k

/-- Python dict assignment `d[k] = v`: an existing key keeps its position
and gets the new value, a new key is appended at the end. -/
def dictInsert (m : List (String × String)) (k v : String) :
    List (String × String) :=
  if hasKey m k then m.map fun p => if p.1 = k then (k, v) else p
  else m ++ [(k, v)]

/-- Python dict construction from a sequence of key/value pairs: first
position wins, last value wins. -/
def buildDict (l : List (String × String)) : List (String × String) :=
  l.foldl (fun m p => dictInsert m p.1 p.2) []

/-- The `CORE_TOKENS` class attribute: the dict built from the literal,
so its duplicated keys resolve to their last value. -/
def CORE_TOKENS : List (String × String) := buildDict rawCoreTokens

/-- The `SLASH_TO_EMOJI` class attribute: `{v: k for k, v in CORE_TOKENS.items()}`. -/
def SLASH_TO_EMOJI : List (String × String) :=
  buildDict (CORE_TOKENS.map fun p => (p.2, p.1))

/-- Token resolution `self.CORE_TOKENS.get(token_raw, token_raw)` used in
`parse_message`: a known symbol maps to its canonical identifier, anything
else passes through unchanged. -/
def resolveToken (t : String) : String :=
  match CORE_TOKENS.lookup t with
  | some c => c
  | none => t

/-- Python `str.strip()`: removes leading and trailing whitespace. -/
def pyStrip (l : List Char) : List Char :=
  ((l.dropWhile isPySpace).reverse.dropWhile isPySpace).reverse

/-- Group 1 of the token pattern at the head of `l`: either a single
character of the symbol class, or `/` followed by a maximal nonempty run
of word characters.  Returns the matched characters and the rest. -/
def matchToken (l : List Char) : Option (List Char × List Char) :=
  match l with
  | [] => none
  | c :: rest =>
    if symbolClass.contains c then some ([c], rest)
    else if c = '/' then
      if (rest.takeWhile isWordChar).isEmpty then none
      else some ('/' :: rest.takeWhile isWordChar, rest.dropWhile isWordChar)
    else none

/-- Tests whether a character list starts with `:`. -/
def headIsColon (l : List Char) : Bool :=
  match l with
  | c :: _ => c = ':'
  | [] => false

/-- The `/\w+:` alternative of the lookahead: `/`, a maximal nonempty run
of word characters, then `:`. -/
def slashColonB (l : List Char) : Bool :=
  match l with
  | c :: rest =>
    c = '/' && !(rest.takeWhile isWordChar).isEmpty &&
      headIsColon (rest.dropWhile isWordChar)
  | [] => false

/-- The lookahead `(?=\n[SYMS]|/\w+:|$)` of the token pattern, evaluated
at a suffix of the input.  Under `re.MULTILINE`, `$` holds at the end of
the input and before every `\n`, which subsumes the `\n[SYMS]`
alternative; the remaining alternative is a `/word:` occurrence. -/
def lookaheadB (l : List Char) : Bool :=
  match l with
  | [] => true
  | c :: rest => c = '\n' || slashColonB (c :: rest)

/-- The lazy group `(.+?)` bounded by the lookahead: consumes at least one
character and stops at the first position where the lookahead holds.
Returns the value characters and the rest of the input. -/
def takeValue (l : List Char) : List Char × List Char :=
  match l with
  | [] => ([], [])
  | c :: rest =>
    if lookaheadB rest then ([c], rest)
    else
      let p := takeValue rest
      (c :: p.1, p.2)

/-- Matches the whole token pattern at the head of `l`, returning the raw
token characters, the raw value characters, and the rest of the input.
After the colon, `\s*` greedily takes the whitespace run; if nothing is
left, the regex engine backtracks one whitespace character so that the
lazy `(.+?)` can match it. -/
def matchHere (l : List Char) : Option (List Char × List Char × List Char) :=
  match matchToken l with
  | none => none
  | some (tok, rest1) =>
    match rest1 with
    | ':' :: rest2 =>
      match rest2.dropWhile isPySpace with
      | [] =>
        if (rest2.takeWhile isPySpace).isEmpty then none
        else some (tok, [(rest2.takeWhile isPySpace).getLastD ' '], [])
      | _ :: _ =>
        some (tok, (takeValue (rest2.dropWhile isPySpace)).1,
          (takeValue (rest2.dropWhile isPySpace)).2)
    | _ => none

/-- Scanning loop of `re.findall`: tries the pattern at every position
from left to right and resumes after each match.  `fuel` bounds the
number of steps; each step consumes at least one character, so an initial
fuel of the input length is always sufficient. -/
def findAllAux (fuel : Nat) (l : List Char) : List (List Char × List Char) :=
  match fuel, l with
  | 0, _ => []
  | _ + 1, [] => []
  | fuel + 1, c :: rest =>
    match matchHere (c :: rest) with
    | some (tok, v, rem) => (tok, v) :: findAllAux fuel rem
    | none => findAllAux fuel rest

/-- All matches of `token_pattern` in the input, in order:
`self.token_pattern.findall(text)`. -/
def pythonFindall (l : List Char) : List (List Char × List Char) :=
  findAllAux l.length l

/-- Token extraction loop of `parse_message`: each raw match is resolved
through `CORE_TOKENS` and its stripped value stored in the token dict,
a later occurrence of the same canonical token overwriting the earlier
value in place. -/
def parse_tokens (text : String) : List (String × String) :=
  (pythonFindall text.toList).foldl
    (fun m p => dictInsert m (resolveToken (String.mk p.1))
                  (String.mk (pyStrip p.2))) []

/-- Diagnostic appended when `/act` is present without `/intent`. -/
def msgIntent : String := "Action requires /intent declaration"

/-- Diagnostic appended when `/act` is present without `/context`. -/
def msgContext : String := "Action requires /context declaration"

/-- Diagnostic appended when an interactive token lacks `/deliverable`. -/
def msgDeliverable : String :=
  "Interactive tokens should specify expected /deliverable"

/-- The `validate_message` method: returns the validity flag and the list
of diagnostics it appended, in order. -/
def validate_message (tokens : List (String × String)) : Bool × List String :=
  let s1 :=
    if hasKey tokens "/act" then
      let a := if !hasKey tokens "/intent" then (false, [msgIntent])
               else (true, [])
      if !hasKey tokens "/context" then (false, a.2 ++ [msgContext])
      else (a.1, a.2)
    else (true, [])
  let errs :=
    if (hasKey tokens "/act" || hasKey tokens "/query" ||
        hasKey tokens "/resolve") && !hasKey tokens "/deliverable" then
      s1.2 ++ [msgDeliverable]
    else s1.2
  (s1.1, errs)

/-- Diagnostics of `validate_message` that set `is_valid = False` when
appended; the `/deliverable` diagnostic is the warning-level one. -/
def isErrorDiag (s : String) : Bool :=
  s = msgIntent || s = msgContext

/-- Display token selection of `format_message`: the symbol when emojis
are requested and one is registered, else the canonical identifier. -/
def displayToken (use_emojis : Bool) (token : String) : String :=
  if use_emojis && hasKey SLASH_TO_EMOJI token then
    match SLASH_TO_EMOJI.lookup token with
    | some s => s
    | none => token
  else token

/-- Python `"\n".join(lines)`. -/
def joinLines (lines : List String) : String :=
  match lines with
  | [] => ""
  | [l] => l
  | l :: ls => l ++ "\n" ++ joinLines ls

/-- The `format_message` method: one `"token: value"` line per entry in
stored order, joined with newlines. -/
def format_message (tokens : List (String × String)) (use_emojis : Bool) :
    String :=
  joinLines (tokens.map fun p => displayToken use_emojis p.1 ++ ": " ++ p.2)

/-- The `AgentType` enumeration. -/
inductive AgentType where
  | HUMAN
  | GPT
  | CLAUDE
deriving DecidableEq, Repr

/-- The `NeuroGlyphMessage` dataclass, with `validation_errors` already
defaulted to the empty list as `__post_init__` does. -/
structure NeuroGlyphMessage where
  timestamp : String
  agent : String
  agent_type : AgentType
  tokens : List (String × String)
  raw_text : String
  is_valid : Bool
  validation_errors : List String
deriving DecidableEq, Repr

/-- The `parse_message` method: extracts tokens, validates them, and
fills every message field.  The wall-clock timestamp is passed in as a
parameter. -/
def parse_message (text agent : String) (agent_type : AgentType)
    (ts : String) : NeuroGlyphMessage :=
  let tokens := parse_tokens text
  let v := validate_message tokens
  { timestamp := ts
    agent := agent
    agent_type := agent_type
    tokens := tokens
    raw_text := text
    is_valid := v.1
    validation_errors := v.2 }

/-- Message construction used for system-initiated messages: the inline
`NeuroGlyphMessage(...)` construction of
`ConversationEngine.initialize_conversation`, generalized over the token
mapping, agent name and agent kind exactly as the spec's `synthesize`
interface describes it.  The dataclass defaults give `is_valid = True`
and empty `validation_errors`; `raw_text` is the emoji-preferring
formatting of the tokens; the validator is not consulted. -/
def synthesize (tokens : List (String × String)) (agent : String)
    (agent_type : AgentType) (ts : String) : NeuroGlyphMessage :=
  { timestamp := ts
    agent := agent
    agent_type := agent_type
    tokens := tokens
    raw_text := format_message tokens true
    is_valid := true
    validation_errors := [] }

/-- Mutable state of `ConversationEngine`: the conversation history and
the active context. -/
structure EngineState where
  conversation_history : List NeuroGlyphMessage
  active_context : List (String × String)
deriving DecidableEq, Repr

/-- A fresh engine: empty history, empty active context. -/
def EngineState.new : EngineState :=
  { conversation_history := [], active_context := [] }

/-- The `init_tokens` dict of `ConversationEngine.initialize_conversation`,
with Python's `x or default` applied to the `context` and `intent`
arguments (the default is used when the argument is the empty string). -/
def init_tokens (topic : String) (participants : List String)
    (context intent : String) : List (String × String) :=
  [("/mind", String.intercalate ", " participants),
   ("/focus", topic),
   ("/context", if context = "" then "Multi-agent dialogue on " ++ topic
                else context),
   ("/intent", if intent = "" then
                 "Collaborative exploration and understanding"
               else intent),
   ("/deliverable", "structured_dialogue"),
   ("/timeline", "ongoing"),
   ("/channel", "text_and_voice"),
   ("/norm", "respectful_dialogue, ng_protocol_adherence"),
   ("/govern", "consensus_seeking")]

/-- The `ConversationEngine.initialize_conversation` method: appends the
synthesized initialization message to the history and replaces the active
context with a copy of the initialization tokens. -/
def init_conversation (topic : String) (participants : List String)
    (context intent ts : String) (st : EngineState) :
    EngineState × NeuroGlyphMessage :=
  let toks := init_tokens topic participants context intent
  let msg := synthesize toks "system" AgentType.HUMAN ts
  ({ conversation_history := st.conversation_history ++ [msg],
     active_context := toks }, msg)

/-- Active-context update of `ConversationEngine.add_message`: the two
sticky keys `/context` and `/focus` are copied from the new message's
tokens when present; everything else is left untouched. -/
def accumulate (ac : List (String × String)) (msg : NeuroGlyphMessage) :
    List (String × String) :=
  let ac1 :=
    match msg.tokens.lookup "/context" with
    | some v => dictInsert ac "/context" v
    | none => ac
  match msg.tokens.lookup "/focus" with
  | some v => dictInsert ac1 "/focus" v
  | none => ac1

/-- The `ConversationEngine.add_message` method: parses the text, appends
the message to the history, and folds its sticky tokens into the active
context. -/
def add_message (text agent : String) (agent_type : AgentType)
    (ts : String) (st : EngineState) : EngineState × NeuroGlyphMessage :=
  let msg := parse_message text agent agent_type ts
  ({ conversation_history := st.conversation_history ++ [msg],
     active_context := accumulate st.active_context msg }, msg)

/-- Example input of the spec's testable-properties section, used by C1. -/
def c1_input : String :=
  "🚀: ship_v1\n💡: deliver_value\n🎯: launch\n📦: release_notes"

/-- Arguments of one `add_message` call in a conversation trace. -/
structure AddCall where
  text : String
  agent : String
  agent_type : AgentType
  ts : String

/-- Runs a conversation: one `initialize_conversation` call followed by a
sequence of `add_message` calls, starting from a fresh engine. -/
def runTrace (topic : String) (participants : List String)
    (context intent ts : String) (adds : List AddCall) : EngineState :=
  adds.foldl
    (fun st a => (add_message a.text a.agent a.agent_type a.ts st).1)
    (init_conversation topic participants context intent ts EngineState.new).1

/-- Concrete two-step conversation used by the C6 counterexample. -/
def c6_trace : EngineState :=
  runTrace "topic" ["Human"] "ctx" "int" "ts"
    [{ text := "🚀: do_it\n📦: new_deliv", agent := "Human",
       agent_type := AgentType.HUMAN, ts := "ts2" }]

/-- Message with a `/context` declaration, used by the C7 witness. -/
def c7_msg : NeuroGlyphMessage :=
  { timestamp := "t", agent := "a", agent_type := AgentType.HUMAN,
    tokens := [("/context", "new")], raw_text := "", is_valid := true,
    validation_errors := [] }


/-- Lines of a character list, split on `\n`. -/
def splitOnNl : List Char → List (List Char)
  | [] => [[]]
  | c :: rest =>
    if c = '\n' then [] :: splitOnNl rest
    else
      match splitOnNl rest with
      | [] => [[c]]
      | hd :: tl => (c :: hd) :: tl

/-- Does a line start with a registered symbol or a `/word:` token?  This
definition follows the wording of the round-trip claim's hypothesis. -/
def looksLikeSegStart (l : List Char) : Bool :=
  match l with
  | [] => false
  | c :: _ => symbolClass.contains c || slashColonB l

/-- The round-trip claim's hypothesis as the spec words it: no line of
any value starts with a registered symbol or a `/word:` token. -/
def specValueLinesSafe (T : List (String × String)) : Bool :=
  T.all fun p => (splitOnNl p.2.toList).all fun ln => !looksLikeSegStart ln

/-- A canonical `/word`-shaped key: `/` followed by a nonempty run of
word characters. -/
def goodKeyB (k : String) : Bool :=
  match k.toList with
  | '/' :: w => !w.isEmpty && w.all isWordChar
  | _ => false

/-- A round-trippable value: nonempty, free of line breaks, without
leading or trailing whitespace, and containing no `/` character at all.
The last condition is deliberately stronger than "no embedded `/word:`
occurrence": Python's `\w` is Unicode-aware, so a value such as
`"see /café: here"` is re-segmented by the source's lookahead even
though it contains no ASCII `/word:`; since any `/\w+:` match must start
at a literal `/`, banning `/` from values makes the hypothesis sound for
the source's Unicode semantics as well. -/
def goodValB (v : String) : Bool :=
  !v.toList.isEmpty && v.toList.all (fun c => !(c = '\n')) &&
  !isPySpace (v.toList.headD ' ') && !isPySpace (v.toList.getLastD ' ') &&
  v.toList.all (fun c => !(c = '/'))

/-- In symbol notation only keys whose registered symbol is a single
character of the regex class survive the round trip; multi-code-point
symbols such as `🏔️` (base + variation selector) or `🧠🧠` re-tokenize
differently. -/
def singleSymbolB (k : String) : Bool :=
  match SLASH_TO_EMOJI.lookup k with
  | none => true
  | some s =>
    match s.toList with
    | [c] => symbolClass.contains c
    | _ => false

/-- Characters of one formatted `"token: value"` line. -/
def lineChars (use_emojis : Bool) (p : String × String) : List Char :=
  (displayToken use_emojis p.1).toList ++ ':' :: ' ' :: p.2.toList

/-- Characters of lines joined with `\n`, mirroring `joinLines`. -/
def joinChars : List (List Char) → List Char
  | [] => []
  | [l] => l
  | l :: ls => l ++ '\n' :: joinChars ls

/-- Conditions on one mapping entry under which its formatted line
re-tokenizes to exactly the same entry. -/
def lineOK (b : Bool) (p : String × String) : Prop :=
  ((∃ c, (displayToken b p.1).toList = [c] ∧ symbolClass.contains c = true) ∨
   (∃ w, (displayToken b p.1).toList = '/' :: w ∧ w ≠ [] ∧
     ∀ c ∈ w, isWordChar c = true)) ∧
  p.2.toList ≠ [] ∧ isPySpace (p.2.toList.headD ' ') = false ∧
  (∀ c ∈ p.2.toList, c ≠ '\n') ∧
  (∀ t ∈ p.2.toList.tails, slashColonB t = false)


/-- Latest declared value of a key across a message history: the value
from the last message whose tokens contain the key, if any. -/
def lastDeclared (history : List NeuroGlyphMessage) (k : String) :
    Option String :=
  history.foldl
    (fun acc m => match m.tokens.lookup k with
                  | some v => some v
                  | none => acc) none

/-! Helper lemmas about `takeWhile`, `dropWhile`, `List.lookup`,
`dictInsert` and `buildDict`. -/

theorem takeWhile_append_of_all {p : Char → Bool} {l₁ l₂ : List Char}
    (h : ∀ c ∈ l₁, p c = true) :
    (l₁ ++ l₂).takeWhile p = l₁ ++ l₂.takeWhile p := by
  induction l₁ with
  | nil => simp
  | cons c t ih =>
    simp [List.takeWhile_cons, h c (by simp), ih fun d hd => h d (by simp [hd])]

theorem dropWhile_append_of_all {p : Char → Bool} {l₁ l₂ : List Char}
    (h : ∀ c ∈ l₁, p c = true) :
    (l₁ ++ l₂).dropWhile p = l₂.dropWhile p := by
  induction l₁ with
  | nil => simp
  | cons c t ih =>
    simp [List.dropWhile_cons, h c (by simp), ih fun d hd => h d (by simp [hd])]

theorem takeWhile_eq_nil_of_head {p : Char → Bool} {l : List Char}
    (h : ∀ c, l.head? = some c → p c = false) : l.takeWhile p = [] := by
  cases l with
  | nil => rfl
  | cons c t => simp [List.takeWhile_cons, h c rfl]

theorem dropWhile_eq_self_of_head {p : Char → Bool} {l : List Char}
    (h : ∀ c, l.head? = some c → p c = false) : l.dropWhile p = l := by
  cases l with
  | nil => rfl
  | cons c t => simp [List.dropWhile_cons, h c rfl]

theorem dropWhile_head_false {p : Char → Bool} :
    ∀ {l : List Char} {c : Char}, (l.dropWhile p).head? = some c →
      p c = false := by
  intro l
  induction l with
  | nil => intro c h; simp at h
  | cons a t ih =>
    intro c h
    cases ha : p a with
    | true => exact ih (by simpa [List.dropWhile_cons, ha] using h)
    | false =>
      have hac : a = c := by simpa [List.dropWhile_cons, ha] using h
      rw [← hac]; exact ha

theorem getLastD_mem {l : List Char} {d : Char} (h : l ≠ []) :
    l.getLastD d ∈ l := by
  rw [List.getLastD_eq_getLast?, List.getLast?_eq_getLast l h]
  simp only [Option.getD_some]
  exact List.getLast_mem h

theorem headD_reverse (l : List Char) (d : Char) :
    l.reverse.headD d = l.getLastD d := by
  cases hl : l.reverse.head? with
  | some c =>
    have : l.getLast? = some c := by rw [← List.head?_reverse, hl]
    simp [List.headD_eq_head?, List.getLastD_eq_getLast?, hl, this]
  | none =>
    have : l.getLast? = none := by rw [← List.head?_reverse, hl]
    simp [List.headD_eq_head?, List.getLastD_eq_getLast?, hl, this]

theorem lookup_append (l₁ l₂ : List (String × String)) (k : String) :
    (l₁ ++ l₂).lookup k =
      match l₁.lookup k with
      | some v => some v
      | none => l₂.lookup k := by
  induction l₁ with
  | nil => simp [List.lookup]
  | cons p t ih =>
    obtain ⟨a, b⟩ := p
    by_cases hk : k = a
    · simp [List.lookup, hk]
    · simp [List.lookup, beq_false_of_ne hk, ih]

theorem lookup_mem {m : List (String × String)} {k v : String}
    (h : m.lookup k = some v) : (k, v) ∈ m := by
  induction m with
  | nil => simp [List.lookup] at h
  | cons p t ih =>
    obtain ⟨a, b⟩ := p
    by_cases hk : k = a
    · have hb : b = v := by simpa [List.lookup, hk] using h
      simp [hk, hb]
    · have h' : t.lookup k = some v := by
        simpa [List.lookup, beq_false_of_ne hk] using h
      exact List.mem_cons_of_mem _ (ih h')

theorem mem_lookup_of_nodup {m : List (String × String)} {k v : String}
    (hn : (m.map Prod.fst).Nodup) (h : (k, v) ∈ m) : m.lookup k = some v := by
  induction m with
  | nil => simp at h
  | cons p t ih =>
    obtain ⟨a, b⟩ := p
    rw [List.map_cons, List.nodup_cons] at hn
    obtain ⟨hn1, hn2⟩ := hn
    rcases List.mem_cons.mp h with h1 | h1
    · have h2 : k = a ∧ v = b := by simpa using h1
      simp [List.lookup, h2.1, h2.2]
    · have hk : k ≠ a := by
        intro hkk
        exact hn1 (List.mem_map.mpr ⟨(k, v), h1, hkk⟩)
      simp [List.lookup, beq_false_of_ne hk, ih hn2 h1]

theorem hasKey_cons (a b : String) (t : List (String × String)) (k : String) :
    hasKey ((a, b) :: t) k = (decide (a = k) || hasKey t k) := by
  simp [hasKey]

theorem lookup_none_of_not_hasKey {m : List (String × String)} {k : String}
    (h : hasKey m k = false) : m.lookup k = none := by
  induction m with
  | nil => simp [List.lookup]
  | cons p t ih =>
    obtain ⟨a, b⟩ := p
    rw [hasKey_cons, Bool.or_eq_false_iff, decide_eq_false_iff_not] at h
    have hk : k ≠ a := fun hkk => h.1 hkk.symm
    simp [List.lookup, beq_false_of_ne hk, ih h.2]

theorem hasKey_append (l₁ l₂ : List (String × String)) (k : String) :
    hasKey (l₁ ++ l₂) k = (hasKey l₁ k || hasKey l₂ k) := by
  simp [hasKey, List.any_append]

theorem lookup_map_replace_self {m : List (String × String)} {k v : String}
    (h : hasKey m k = true) :
    (m.map fun p => if p.1 = k then (k, v) else p).lookup k = some v := by
  induction m with
  | nil => simp [hasKey] at h
  | cons p t ih =>
    obtain ⟨a, b⟩ := p
    by_cases hak : a = k
    · rw [List.map_cons,
        show (if (a, b).1 = k then (k, v) else (a, b)) = (k, v) from if_pos hak]
      simp [List.lookup]
    · rw [hasKey_cons, Bool.or_eq_true] at h
      have ht : hasKey t k = true := by
        rcases h with h1 | h1
        · exact absurd (of_decide_eq_true h1) hak
        · exact h1
      have hk : k ≠ a := fun hkk => hak hkk.symm
      rw [List.map_cons,
        show (if (a, b).1 = k then (k, v) else (a, b)) = (a, b) from if_neg hak]
      simp [List.lookup, beq_false_of_ne hk, ih ht]

theorem lookup_map_replace_other {m : List (String × String)} {k k' v : String}
    (h : k' ≠ k) :
    (m.map fun p => if p.1 = k then (k, v) else p).lookup k' = m.lookup k' := by
  induction m with
  | nil => simp
  | cons p t ih =>
    obtain ⟨a, b⟩ := p
    by_cases hak : a = k
    · have hk'a : k' ≠ a := fun hh => h (hh.trans hak)
      rw [List.map_cons,
        show (if (a, b).1 = k then (k, v) else (a, b)) = (k, v) from if_pos hak]
      simp [List.lookup, beq_false_of_ne h, beq_false_of_ne hk'a, ih]
    · rw [List.map_cons,
        show (if (a, b).1 = k then (k, v) else (a, b)) = (a, b) from if_neg hak]
      by_cases hk' : k' = a
      · simp [List.lookup, hk']
      · simp [List.lookup, beq_false_of_ne hk', ih]

theorem lookup_dictInsert_self (m : List (String × String)) (k v : String) :
    (dictInsert m k v).lookup k = some v := by
  unfold dictInsert
  split
  · next h => exact lookup_map_replace_self h
  · next h =>
    rw [lookup_append, lookup_none_of_not_hasKey (by simpa using h)]
    simp [List.lookup]

theorem lookup_dictInsert_other (m : List (String × String)) {k k' : String}
    (v : String) (h : k' ≠ k) :
    (dictInsert m k v).lookup k' = m.lookup k' := by
  unfold dictInsert
  split
  · exact lookup_map_replace_other h
  · rw [lookup_append]
    cases hm : m.lookup k' with
    | some w => simp
    | none => simp [List.lookup, beq_false_of_ne h]

theorem hasKey_dictInsert_self (m : List (String × String)) (k v : String) :
    hasKey (dictInsert m k v) k = true := by
  unfold dictInsert
  split
  · next h =>
    simp only [hasKey, List.any_eq_true] at h ⊢
    obtain ⟨p, hp, hpk⟩ := h
    exact ⟨(k, v), List.mem_map.mpr ⟨p, hp, by simp [of_decide_eq_true hpk]⟩,
      by simp⟩
  · simp [hasKey_append, hasKey]

theorem hasKey_dictInsert_of_hasKey {m : List (String × String)}
    {k k' v : String} (h : hasKey m k' = true) :
    hasKey (dictInsert m k v) k' = true := by
  unfold dictInsert
  split
  · simp only [hasKey, List.any_eq_true] at h ⊢
    obtain ⟨p, hp, hpk⟩ := h
    by_cases hpk2 : p.1 = k
    · refine ⟨(k, v), List.mem_map.mpr ⟨p, hp, by simp [hpk2]⟩, ?_⟩
      have hkk' : k = k' := hpk2.symm.trans (of_decide_eq_true hpk)
      simp [hkk']
    · exact ⟨p, List.mem_map.mpr ⟨p, hp, by simp [hpk2]⟩, hpk⟩
  · simp [hasKey_append, h]

theorem dictInsert_entries_self {m : List (String × String)} {k v : String} :
    ∀ q ∈ dictInsert m k v, q.1 = k → q = (k, v) := by
  intro q hq hqk
  unfold dictInsert at hq
  split at hq
  · obtain ⟨p, hp, hpq⟩ := List.mem_map.mp hq
    by_cases hpk : p.1 = k
    · rw [if_pos hpk] at hpq; exact hpq.symm
    · rw [if_neg hpk] at hpq; exact absurd (hpq ▸ hqk) hpk
  · next hm =>
    rcases List.mem_append.mp hq with h1 | h1
    · exfalso
      apply hm
      simp only [hasKey, List.any_eq_true]
      exact ⟨q, h1, by simp [hqk]⟩
    · simpa using h1

theorem dictInsert_eq_self {m : List (String × String)} {k v : String}
    (hk : hasKey m k = true) (h : ∀ q ∈ m, q.1 = k → q = (k, v)) :
    dictInsert m k v = m := by
  unfold dictInsert
  rw [if_pos hk]
  have he : ∀ q ∈ m, (if q.1 = k then (k, v) else q) = q := by
    intro q hq
    by_cases hqk : q.1 = k
    · rw [if_pos hqk, ← h q hq hqk]
    · rw [if_neg hqk]
  rw [List.map_congr_left he]
  exact List.map_id' m

theorem mem_dictInsert {m : List (String × String)} {k v : String}
    {q : String × String} (h : q ∈ dictInsert m k v) :
    q ∈ m ∨ q = (k, v) := by
  unfold dictInsert at h
  split at h
  · obtain ⟨p, hp, hpq⟩ := List.mem_map.mp h
    by_cases hpk : p.1 = k
    · rw [if_pos hpk] at hpq
      exact Or.inr hpq.symm
    · rw [if_neg hpk] at hpq
      exact Or.inl (hpq ▸ hp)
  · rcases List.mem_append.mp h with h1 | h1
    · exact Or.inl h1
    · exact Or.inr (by simpa using h1)

theorem buildDict_append (l : List (String × String)) (p : String × String) :
    buildDict (l ++ [p]) = dictInsert (buildDict l) p.1 p.2 := by
  simp [buildDict, List.foldl_append]

theorem lookup_buildDict (l : List (String × String)) (k : String) :
    (buildDict l).lookup k = l.reverse.lookup k := by
  induction l using List.reverseRecOn with
  | nil => simp [buildDict, List.lookup]
  | append_singleton t p ih =>
    obtain ⟨a, b⟩ := p
    rw [buildDict_append, List.reverse_append]
    by_cases hk : k = a
    · rw [hk, lookup_dictInsert_self]
      simp [List.lookup]
    · rw [lookup_dictInsert_other _ _ hk]
      simp [List.lookup, beq_false_of_ne hk, ih]

/-! Theorems for the individual claims. -/

/-- C3: registry construction from the fixed table resolves duplicated
symbol definitions deterministically, last definition wins: every lookup
in `CORE_TOKENS` equals the last-entry lookup of the raw literal (so `🎯`
resolves to `/goal`, `🔄` to `/transform`, `🔍` to `/introspect`), and
`SLASH_TO_EMOJI` is the entry-wise inversion of the resolved table. -/
theorem c3_registry_last_write_wins :
    (∀ k : String, CORE_TOKENS.lookup k = rawCoreTokens.reverse.lookup k) ∧
    resolveToken "🎯" = "/goal" ∧ resolveToken "🔄" = "/transform" ∧
    resolveToken "🔍" = "/introspect" ∧
    SLASH_TO_EMOJI = CORE_TOKENS.map (fun p => (p.2, p.1)) := by
  refine ⟨fun k => lookup_buildDict rawCoreTokens k, ?_, ?_, ?_, ?_⟩ <;> decide


/-- C1: counterexample — on the spec's example input the parser produces
no `/context` entry at all (the duplicated symbol `🎯` resolves to
`/goal`), so the message is invalid and carries a diagnostic,
contradicting the claimed mapping with `is_valid = true` and an empty
diagnostics list. -/
theorem c1_counterexample :
    (parse_tokens c1_input).lookup "/context" = none ∧
    (parse_message c1_input "Human" AgentType.HUMAN "ts").is_valid = false ∧
    (parse_message c1_input "Human" AgentType.HUMAN "ts").validation_errors ≠
      [] := by
  refine ⟨?_, ?_, ?_⟩ <;> decide

/-- C1 (amended): on the example input, parsing yields the token mapping
`{/act, /intent, /goal, /deliverable}` — `🎯` resolves last-write-wins to
`/goal`, not `/context` — so validation fails with exactly the
missing-`/context` error diagnostic, for every agent name, agent kind and
timestamp. -/
theorem c1_amended (agent : String) (ty : AgentType) (ts : String) :
    (parse_message c1_input agent ty ts).tokens =
      [("/act", "ship_v1"), ("/intent", "deliver_value"),
       ("/goal", "launch"), ("/deliverable", "release_notes")] ∧
    (parse_message c1_input agent ty ts).is_valid = false ∧
    (parse_message c1_input agent ty ts).validation_errors = [msgContext] := by
  have ht : parse_tokens c1_input =
      [("/act", "ship_v1"), ("/intent", "deliver_value"),
       ("/goal", "launch"), ("/deliverable", "release_notes")] := by decide
  have hv : validate_message
      [("/act", "ship_v1"), ("/intent", "deliver_value"),
       ("/goal", "launch"), ("/deliverable", "release_notes")] =
      (false, [msgContext]) := by decide
  refine ⟨?_, ?_, ?_⟩ <;> simp [parse_message, ht, hv]

/-- C10: counterexample — the input `"🚀:  "`, a declaration whose value
is whitespace-only up to end of text, is NOT dropped: backtracking of
`\s*` lets the lazy value group match the final space, so `/act` is
mapped to the empty string. -/
theorem c10_counterexample :
    parse_tokens "🚀:  " = [("/act", "")] ∧ parse_tokens "🚀:  " ≠ [] := by
  refine ⟨by decide, by decide⟩

/-- C10 (amended): an empty-valued declaration is dropped only when the
colon is the very last character of the text (`"🚀:"` yields no entry);
when one or more whitespace characters follow the colon up to end of
text, the token IS mapped, to the empty string. -/
theorem c10_amended (w : List Char) (hne : w ≠ [])
    (hsp : ∀ c ∈ w, isPySpace c = true) :
    parse_tokens "🚀:" = [] ∧
    parse_tokens (String.mk ('🚀' :: ':' :: w)) = [("/act", "")] := by
  refine ⟨by decide, ?_⟩
  have h1 : w.takeWhile isPySpace = w := List.takeWhile_eq_self_iff.mpr hsp
  have h2 : w.dropWhile isPySpace = [] := List.dropWhile_eq_nil_iff.mpr hsp
  have hwe : w.isEmpty = false := by
    cases w with
    | nil => exact absurd rfl hne
    | cons c t => rfl
  have hsp1 : isPySpace (w.getLastD ' ') = true := hsp _ (getLastD_mem hne)
  have hmatch : matchHere ('🚀' :: ':' :: w) =
      some (['🚀'], [w.getLastD ' '], []) := by
    have htok : matchToken ('🚀' :: ':' :: w) = some (['🚀'], ':' :: w) := by
      simp only [matchToken]
      rw [if_pos (by decide : symbolClass.contains '🚀' = true)]
    simp only [matchHere, htok, h1, h2]
    rw [if_neg (by simp [hwe] : ¬ w.isEmpty = true)]
  have hfind : pythonFindall (String.mk ('🚀' :: ':' :: w)).toList =
      [(['🚀'], [w.getLastD ' '])] := by
    show pythonFindall ('🚀' :: ':' :: w) = _
    unfold pythonFindall
    have hlen : ('🚀' :: ':' :: w).length = w.length + 1 + 1 := by simp
    rw [hlen]
    rw [show findAllAux (w.length + 1 + 1) ('🚀' :: ':' :: w) =
          match matchHere ('🚀' :: ':' :: w) with
          | some (tok, v, rem) => (tok, v) :: findAllAux (w.length + 1) rem
          | none => findAllAux (w.length + 1) (':' :: w) from rfl]
    rw [hmatch]
    rfl
  have hstrip : pyStrip [w.getLastD ' '] = [] := by
    unfold pyStrip
    rw [List.dropWhile_cons, if_pos hsp1]
    rfl
  simp only [parse_tokens, hfind, List.foldl]
  rw [hstrip]
  decide

/-- C5: the validator applies its rules in fixed order: validity is
decided solely by the action-requires-`/intent`/`/context` rule (the
`/deliverable` rule never flips it); the diagnostics list is the intent
error, then the context error, then the deliverable warning, each exactly
under its condition; in particular a mapping with `/act` but neither
`/intent` nor `/context` gets exactly the two error-level diagnostics and
`is_valid = false`. -/
theorem c5_validator_rules (tokens : List (String × String)) :
    (validate_message tokens).1 =
      !(hasKey tokens "/act" &&
        (!hasKey tokens "/intent" || !hasKey tokens "/context")) ∧
    (validate_message tokens).2 =
      (if hasKey tokens "/act" && !hasKey tokens "/intent" then [msgIntent]
       else []) ++
      (if hasKey tokens "/act" && !hasKey tokens "/context" then [msgContext]
       else []) ++
      (if (hasKey tokens "/act" || hasKey tokens "/query" ||
           hasKey tokens "/resolve") && !hasKey tokens "/deliverable" then
         [msgDeliverable]
       else []) ∧
    (hasKey tokens "/act" = true → hasKey tokens "/intent" = false →
      hasKey tokens "/context" = false →
      (validate_message tokens).2.filter isErrorDiag =
        [msgIntent, msgContext] ∧
      (validate_message tokens).1 = false) := by
  have d1 : isErrorDiag msgIntent = true := by decide
  have d2 : isErrorDiag msgContext = true := by decide
  have d3 : isErrorDiag msgDeliverable = false := by decide
  cases h1 : hasKey tokens "/act" <;> cases h2 : hasKey tokens "/intent" <;>
    cases h3 : hasKey tokens "/context" <;>
    cases h4 : hasKey tokens "/deliverable" <;>
    cases h5 : hasKey tokens "/query" <;>
    cases h6 : hasKey tokens "/resolve" <;>
    simp [validate_message, h1, h2, h3, h4, h5, h6, d1, d2, d3]

/-- C5 witness: a mapping with `/act` but neither `/intent` nor
`/context` yields exactly the two error diagnostics and is invalid. -/
theorem c5_witness :
    (validate_message [("/act", "x")]).2.filter isErrorDiag =
      [msgIntent, msgContext] ∧
    (validate_message [("/act", "x")]).1 = false :=
  (c5_validator_rules [("/act", "x")]).2.2 (by decide) (by decide) (by decide)

/-- C8: parsing is total and failure-free: whenever the token pattern
finds no match in the text, the parsed message carries an empty token
mapping, an empty diagnostics list, and `is_valid = true`, for every
agent name, agent kind and timestamp. -/
theorem c8_no_token_graceful (text agent : String) (ty : AgentType)
    (ts : String) (h : pythonFindall text.toList = []) :
    (parse_message text agent ty ts).tokens = [] ∧
    (parse_message text agent ty ts).is_valid = true ∧
    (parse_message text agent ty ts).validation_errors = [] := by
  have h' : pythonFindall text.data = [] := h
  have ht : parse_tokens text = [] := by simp [parse_tokens, h']
  refine ⟨?_, ?_, ?_⟩ <;> simp [parse_message, ht, validate_message, hasKey]

/-- C8 witness: a token-free text parses to an empty, valid message. -/
theorem c8_witness :
    (parse_message "plain chatter with no protocol markers" "Human"
      AgentType.HUMAN "ts").tokens = [] ∧
    (parse_message "plain chatter with no protocol markers" "Human"
      AgentType.HUMAN "ts").is_valid = true ∧
    (parse_message "plain chatter with no protocol markers" "Human"
      AgentType.HUMAN "ts").validation_errors = [] :=
  c8_no_token_graceful "plain chatter with no protocol markers" "Human"
    AgentType.HUMAN "ts" (by decide)

/-- C9: synthesized messages are trusted by construction: for every token
mapping, agent name, agent kind and timestamp, the message has
`is_valid = true`, an empty diagnostics list, and `raw_text` equal to the
emoji-preferring formatting of the tokens — even when the validator would
reject the very same mapping. -/
theorem c9_synthesize_trusted (tokens : List (String × String))
    (agent : String) (ty : AgentType) (ts : String) :
    (synthesize tokens agent ty ts).is_valid = true ∧
    (synthesize tokens agent ty ts).validation_errors = [] ∧
    (synthesize tokens agent ty ts).raw_text = format_message tokens true ∧
    ((validate_message tokens).1 = false →
      (synthesize tokens agent ty ts).is_valid = true) :=
  ⟨rfl, rfl, rfl, fun _ => rfl⟩

/-- C9 witness: a mapping the validator rejects still synthesizes to a
valid message. -/
theorem c9_witness :
    (validate_message [("/act", "x")]).1 = false ∧
    (synthesize [("/act", "x")] "system" AgentType.HUMAN "ts").is_valid =
      true :=
  ⟨by decide, (c9_synthesize_trusted [("/act", "x")] "system" AgentType.HUMAN
    "ts").2.2.2 (by decide)⟩


/-- C10 witness: instantiation of the amended claim at a two-space
whitespace suffix, the counterexample input. -/
theorem c10_witness :
    parse_tokens "🚀:" = [] ∧
    parse_tokens (String.mk ('🚀' :: ':' :: [' ', ' '])) = [("/act", "")] :=
  c10_amended [' ', ' '] (by decide) (by decide)

/-! Conversation-trace machinery for C6 and C7. -/

theorem accumulate_lookup_context (ac : List (String × String))
    (msg : NeuroGlyphMessage) :
    (accumulate ac msg).lookup "/context" =
      match msg.tokens.lookup "/context" with
      | some v => some v
      | none => ac.lookup "/context" := by
  unfold accumulate
  cases hc : msg.tokens.lookup "/context" with
  | some v =>
    cases hf : msg.tokens.lookup "/focus" with
    | some v' =>
      rw [lookup_dictInsert_other _ _
          (by decide : ("/context" : String) ≠ "/focus"),
        lookup_dictInsert_self]
    | none => rw [lookup_dictInsert_self]
  | none =>
    cases hf : msg.tokens.lookup "/focus" with
    | some v' =>
      rw [lookup_dictInsert_other _ _
        (by decide : ("/context" : String) ≠ "/focus")]
    | none => rfl

theorem accumulate_lookup_focus (ac : List (String × String))
    (msg : NeuroGlyphMessage) :
    (accumulate ac msg).lookup "/focus" =
      match msg.tokens.lookup "/focus" with
      | some v => some v
      | none => ac.lookup "/focus" := by
  unfold accumulate
  cases hc : msg.tokens.lookup "/context" with
  | some v =>
    cases hf : msg.tokens.lookup "/focus" with
    | some v' => rw [lookup_dictInsert_self]
    | none =>
      rw [lookup_dictInsert_other _ _
        (by decide : ("/focus" : String) ≠ "/context")]
  | none =>
    cases hf : msg.tokens.lookup "/focus" with
    | some v' => rw [lookup_dictInsert_self]
    | none => rfl

theorem lastDeclared_append (h : List NeuroGlyphMessage)
    (m : NeuroGlyphMessage) (k : String) :
    lastDeclared (h ++ [m]) k =
      match m.tokens.lookup k with
      | some v => some v
      | none => lastDeclared h k := by
  unfold lastDeclared
  rw [List.foldl_append]
  cases hm : m.tokens.lookup k <;> simp [hm]



theorem init_establishes_sticky (topic : String) (participants : List String)
    (context intent ts : String) (k : String)
    (hk : k = "/context" ∨ k = "/focus") :
    ((init_conversation topic participants context intent ts
        EngineState.new).1).active_context.lookup k =
      lastDeclared ((init_conversation topic participants context intent ts
        EngineState.new).1).conversation_history k := by
  rcases hk with hk | hk <;> subst hk <;>
    simp [init_conversation, EngineState.new, synthesize, lastDeclared,
      init_tokens, List.lookup]

theorem add_message_preserves_sticky (st : EngineState) (a : AddCall)
    (k : String) (hk : k = "/context" ∨ k = "/focus")
    (ih : st.active_context.lookup k =
      lastDeclared st.conversation_history k) :
    ((add_message a.text a.agent a.agent_type a.ts st).1).active_context.lookup
        k =
      lastDeclared
        ((add_message a.text a.agent a.agent_type
          a.ts st).1).conversation_history k := by
  unfold add_message
  simp only
  rw [lastDeclared_append]
  rcases hk with hk | hk <;> subst hk
  · rw [accumulate_lookup_context]
    cases hm : (parse_message a.text a.agent a.agent_type
        a.ts).tokens.lookup "/context" <;> simp [hm, ih]
  · rw [accumulate_lookup_focus]
    cases hm : (parse_message a.text a.agent a.agent_type
        a.ts).tokens.lookup "/focus" <;> simp [hm, ih]

/-- C6 (amended): for the two sticky keys `/context` and `/focus`, the
active context always holds exactly the value of the last message in the
history (initialization message included) that declared that key — after
initialization and after every appended message.  For other keys the
initialization values persist unrefreshed, so the claim's full invariant
fails (see the counterexample). -/
theorem c6_amended (topic : String) (participants : List String)
    (context intent ts : String) (adds : List AddCall) (k : String)
    (hk : k = "/context" ∨ k = "/focus") :
    (runTrace topic participants context intent ts
        adds).active_context.lookup k =
      lastDeclared (runTrace topic participants context intent ts
        adds).conversation_history k := by
  induction adds using List.reverseRecOn with
  | nil =>
    exact init_establishes_sticky topic participants context intent ts k hk
  | append_singleton t a ih =>
    have hr : runTrace topic participants context intent ts (t ++ [a]) =
        (add_message a.text a.agent a.agent_type a.ts
          (runTrace topic participants context intent ts t)).1 := by
      simp [runTrace, List.foldl_append]
    rw [hr]
    exact add_message_preserves_sticky _ a k hk ih

/-- C6 witness: the invariant instantiated on the empty trace at
`/context`. -/
theorem c6_witness :
    (runTrace "topic" ["Human"] "" "" "ts" []).active_context.lookup
        "/context" =
      lastDeclared
        (runTrace "topic" ["Human"] "" "" "ts" []).conversation_history
        "/context" :=
  c6_amended "topic" ["Human"] "" "" "ts" [] "/context" (Or.inl rfl)


/-- C6: counterexample — after a message declaring `/deliverable`, the
active context still holds the initialization value (only `/context` and
`/focus` are refreshed), and the declared `/act` key never appears in the
active context even though a message declared it; both parts of the
claimed invariant fail. -/
theorem c6_counterexample :
    c6_trace.active_context.lookup "/deliverable" =
      some "structured_dialogue" ∧
    lastDeclared c6_trace.conversation_history "/deliverable" =
      some "new_deliv" ∧
    ("structured_dialogue" : String) ≠ "new_deliv" ∧
    c6_trace.active_context.lookup "/act" = none ∧
    lastDeclared c6_trace.conversation_history "/act" = some "do_it" := by
  refine ⟨?_, ?_, ?_, ?_, ?_⟩ <;> decide

/-- C7: the active-context accumulator is a pure last-write-wins fold:
every sticky key (`/context`, `/focus`) present in the new message's
tokens overwrites the corresponding active-context entry; keys not
present, and non-sticky keys, are left untouched (never cleared); and
folding the same message twice in sequence yields exactly the same active
context as folding it once. -/
theorem c7_accumulator_lww (ac : List (String × String))
    (msg : NeuroGlyphMessage) :
    (∀ k v, (k = "/context" ∨ k = "/focus") →
      msg.tokens.lookup k = some v →
      (accumulate ac msg).lookup k = some v) ∧
    (∀ k, (¬(k = "/context" ∨ k = "/focus") ∨ msg.tokens.lookup k = none) →
      (accumulate ac msg).lookup k = ac.lookup k) ∧
    accumulate (accumulate ac msg) msg = accumulate ac msg := by
  refine ⟨?_, ?_, ?_⟩
  · intro k v hk hv
    rcases hk with hk | hk <;> subst hk
    · rw [accumulate_lookup_context, hv]
    · rw [accumulate_lookup_focus, hv]
  · intro k hcase
    rcases hcase with hns | hnone
    · push_neg at hns
      unfold accumulate
      cases hc : msg.tokens.lookup "/context" <;>
        cases hf : msg.tokens.lookup "/focus" <;>
        simp [lookup_dictInsert_other _ _ hns.1,
          lookup_dictInsert_other _ _ hns.2]
    · by_cases h1 : k = "/context"
      · subst h1
        rw [accumulate_lookup_context, hnone]
      · by_cases h2 : k = "/focus"
        · subst h2
          rw [accumulate_lookup_focus, hnone]
        · unfold accumulate
          cases hc : msg.tokens.lookup "/context" <;>
            cases hf : msg.tokens.lookup "/focus" <;>
            simp [lookup_dictInsert_other _ _ h1,
              lookup_dictInsert_other _ _ h2]
  · cases hc : msg.tokens.lookup "/context" with
    | none =>
      cases hf : msg.tokens.lookup "/focus" with
      | none => simp only [accumulate, hc, hf]
      | some v' =>
        simp only [accumulate, hc, hf]
        exact dictInsert_eq_self (hasKey_dictInsert_self _ _ _)
          dictInsert_entries_self
    | some v =>
      cases hf : msg.tokens.lookup "/focus" with
      | none =>
        simp only [accumulate, hc, hf]
        exact dictInsert_eq_self (hasKey_dictInsert_self _ _ _)
          dictInsert_entries_self
      | some v' =>
        simp only [accumulate, hc, hf]
        have hB1 : dictInsert
            (dictInsert (dictInsert ac "/context" v) "/focus" v')
            "/context" v =
            dictInsert (dictInsert ac "/context" v) "/focus" v' := by
          apply dictInsert_eq_self
          · exact hasKey_dictInsert_of_hasKey (hasKey_dictInsert_self _ _ _)
          · intro q hq hqk
            rcases mem_dictInsert hq with hq1 | hq1
            · exact dictInsert_entries_self q hq1 hqk
            · rw [hq1] at hqk
              simp at hqk
        rw [hB1]
        exact dictInsert_eq_self (hasKey_dictInsert_self _ _ _)
          dictInsert_entries_self


/-- C7 witness: folding a message declaring `/context` overwrites the
active-context entry. -/
theorem c7_witness :
    (accumulate [("/focus", "f0"), ("/context", "c0")] c7_msg).lookup
      "/context" = some "new" :=
  (c7_accumulator_lww [("/focus", "f0"), ("/context", "c0")] c7_msg).1
    "/context" "new" (Or.inl rfl) (by decide)


/-! Lemmas for C2: token values never contain a line break. -/

theorem lookaheadB_false_shape {l : List Char} (h : lookaheadB l = false) :
    ∃ c t, l = c :: t ∧ c ≠ '\n' := by
  cases l with
  | nil => simp [lookaheadB] at h
  | cons c t =>
    refine ⟨c, t, rfl, ?_⟩
    intro hc
    subst hc
    simp [lookaheadB] at h

theorem takeValue_no_nl : ∀ (l : List Char),
    (∀ c, l.head? = some c → c ≠ '\n') →
    ∀ c ∈ (takeValue l).1, c ≠ '\n' := by
  intro l
  induction l with
  | nil => intro _ c hc; simp [takeValue] at hc
  | cons a t ih =>
    intro hhead c hc
    have ha : a ≠ '\n' := hhead a rfl
    by_cases hl : lookaheadB t = true
    · simp [takeValue, hl] at hc
      rw [hc]; exact ha
    · have hl' : lookaheadB t = false := by simpa using hl
      obtain ⟨d, t', ht, hd⟩ := lookaheadB_false_shape hl'
      simp [takeValue, hl'] at hc
      rcases hc with hc | hc
      · rw [hc]; exact ha
      · refine ih ?_ c hc
        intro e he
        rw [ht] at he
        simp at he
        rw [← he]
        exact hd

theorem mem_pyStrip {c : Char} {l : List Char} (h : c ∈ pyStrip l) :
    c ∈ l := by
  unfold pyStrip at h
  rw [List.mem_reverse] at h
  have h2 : c ∈ (l.dropWhile isPySpace).reverse :=
    (List.dropWhile_sublist _).subset h
  rw [List.mem_reverse] at h2
  exact (List.dropWhile_sublist _).subset h2

theorem matchHere_strip_no_nl {l tok v rem : List Char}
    (h : matchHere l = some (tok, v, rem)) :
    ∀ c ∈ pyStrip v, c ≠ '\n' := by
  unfold matchHere at h
  split at h
  · exact absurd h (by simp)
  · split at h
    · rename_i rest2 heq
      split at h
      · split at h
        · exact absurd h (by simp)
        · next hwe =>
          simp only [Option.some.injEq, Prod.mk.injEq] at h
          obtain ⟨-, h2, -⟩ := h
          rw [← h2]
          intro c hc
          have hsp : isPySpace ((rest2.takeWhile isPySpace).getLastD ' ') =
              true := by
            refine List.mem_takeWhile_imp (getLastD_mem ?_)
            intro hnil
            rw [hnil] at hwe
            exact hwe rfl
          exfalso
          have hps : pyStrip [(rest2.takeWhile isPySpace).getLastD ' '] =
              [] := by
            unfold pyStrip
            rw [List.dropWhile_cons, if_pos hsp]
            rfl
          rw [hps] at hc
          simp at hc
      · simp only [Option.some.injEq, Prod.mk.injEq] at h
        obtain ⟨-, h2, -⟩ := h
        rw [← h2]
        intro c hc
        refine takeValue_no_nl (rest2.dropWhile isPySpace) ?_ c
          (mem_pyStrip hc)
        intro e he
        have hef : isPySpace e = false := dropWhile_head_false he
        intro hnl
        rw [hnl] at hef
        simp [isPySpace] at hef
    · exact absurd h (by simp)

theorem findAllAux_strip_no_nl :
    ∀ (fuel : Nat) (l tok v : List Char),
      (tok, v) ∈ findAllAux fuel l → ∀ c ∈ pyStrip v, c ≠ '\n' := by
  intro fuel
  induction fuel with
  | zero => intro l tok v h; simp [findAllAux] at h
  | succ n ih =>
    intro l tok v h
    cases l with
    | nil => simp [findAllAux] at h
    | cons a rest =>
      unfold findAllAux at h
      split at h
      · next t0 v0 r0 heq =>
        rcases List.mem_cons.mp h with h1 | h1
        · obtain ⟨ht0, hv0⟩ : tok = t0 ∧ v = v0 := by simpa using h1
          rw [hv0]
          exact matchHere_strip_no_nl heq
        · exact ih r0 tok v h1
      · exact ih rest tok v h

theorem foldl_dictInsert_values {α : Type} (f g : α → String) :
    ∀ (pairs : List α) (acc : List (String × String)) (P : String → Prop),
      (∀ q ∈ acc, P q.2) → (∀ p ∈ pairs, P (g p)) →
      ∀ q ∈ pairs.foldl (fun m p => dictInsert m (f p) (g p)) acc, P q.2 := by
  intro pairs
  induction pairs with
  | nil => intro acc P hacc _ q hq; exact hacc q hq
  | cons p t ih =>
    intro acc P hacc hpairs q hq
    refine ih (dictInsert acc (f p) (g p)) P ?_
      (fun r hr => hpairs r (by simp [hr])) q hq
    intro r hr
    rcases mem_dictInsert hr with h1 | h1
    · exact hacc r h1
    · rw [h1]; exact hpairs p (by simp)

theorem parse_tokens_no_nl {text k v : String}
    (h : (k, v) ∈ parse_tokens text) : ∀ c ∈ v.toList, c ≠ '\n' := by
  unfold parse_tokens at h
  have hall := foldl_dictInsert_values
    (fun p : List Char × List Char => resolveToken (String.mk p.1))
    (fun p : List Char × List Char => String.mk (pyStrip p.2))
    (pythonFindall text.toList) [] (fun s => ∀ c ∈ s.toList, c ≠ '\n')
    (by simp)
    (fun p hp => findAllAux_strip_no_nl text.toList.length text.toList
      p.1 p.2 hp)
    (k, v) h
  exact hall

/-- C2: counterexample — a segment's value does NOT extend to the next
segment-starting line: under `re.MULTILINE`, `$` ends every value at its
own line, so the free-text continuation line after `🚀: a` is discarded,
not preserved in the value with its line break as claimed. -/
theorem c2_counterexample :
    parse_tokens "🚀: a\nplain continuation\n💡: b" =
      [("/act", "a"), ("/intent", "b")] ∧
    (parse_tokens "🚀: a\nplain continuation\n💡: b").lookup "/act" ≠
      some "a\nplain continuation" := by
  refine ⟨by decide, by decide⟩

/-- C2 (amended): the tokenizer scans the text left to right for a
registered symbol or `/word` identifier followed by `:` (at any position,
not only at line starts); each value runs from after the colon and any
following whitespace to the end of the line on which it starts, or to an
embedded `/word:` occurrence — so no stored value ever contains a line
break — and all text outside recognized segments is discarded without
error.  Shown: the no-line-break invariant for every input, and a
representative input exhibiting mid-line recognition, line-end value
termination, mid-line `/word:` splitting, and junk discarding. -/
theorem c2_amended :
    (∀ (text k v : String), (k, v) ∈ parse_tokens text →
      ∀ c ∈ v.toList, c ≠ '\n') ∧
    parse_tokens "junk 🚀: a\nplain continuation\n💡: b /x: c" =
      [("/act", "a"), ("/intent", "b"), ("/x", "c")] :=
  ⟨fun _ _ _ h => parse_tokens_no_nl h, by decide⟩

/-- C2 witness: the invariant applied to a concrete parsed entry. -/
theorem c2_witness : ('h' : Char) ≠ '\n' :=
  c2_amended.1 "🚀: hi" "/act" "hi" (by decide) 'h' (by decide)


/-! Lemmas for C4: the round trip `parse_tokens (format_message T b) = T`. -/

theorem format_message_toList (T : List (String × String)) (b : Bool) :
    (format_message T b).toList = joinChars (T.map (lineChars b)) := by
  unfold format_message
  induction T with
  | nil => rfl
  | cons p t ih =>
    cases t with
    | nil =>
      show (displayToken b p.1 ++ ": " ++ p.2).toList = lineChars b p
      simp [lineChars, String.toList, String.data_append]
    | cons q t' =>
      show (displayToken b p.1 ++ ": " ++ p.2 ++ "\n" ++
          joinLines ((q :: t').map fun r =>
            displayToken b r.1 ++ ": " ++ r.2)).toList =
        joinChars (lineChars b p :: (q :: t').map (lineChars b))
      have hjc : joinChars (lineChars b p :: (q :: t').map (lineChars b)) =
          lineChars b p ++ '\n' :: joinChars ((q :: t').map (lineChars b)) := by
        rfl
      rw [hjc, ← ih]
      simp [lineChars, String.toList, String.data_append]

theorem matchToken_symbol {c : Char} (hc : symbolClass.contains c = true)
    (r : List Char) : matchToken (c :: r) = some ([c], r) := by
  simp only [matchToken]
  rw [if_pos hc]

theorem matchToken_slash {w : List Char} (hw : w ≠ [])
    (hword : ∀ c ∈ w, isWordChar c = true) (r : List Char) :
    matchToken ('/' :: (w ++ ':' :: r)) = some ('/' :: w, ':' :: r) := by
  have hns : symbolClass.contains '/' = false := by decide
  have hcw : isWordChar ':' = false := by decide
  have ht : (w ++ ':' :: r).takeWhile isWordChar = w := by
    rw [takeWhile_append_of_all hword]
    simp [List.takeWhile_cons, hcw]
  have hd : (w ++ ':' :: r).dropWhile isWordChar = ':' :: r := by
    rw [dropWhile_append_of_all hword]
    simp [List.dropWhile_cons, hcw]
  have hwe : w.isEmpty = false := by
    cases w with
    | nil => exact absurd rfl hw
    | cons a t => rfl
  simp only [matchToken]
  rw [if_neg (by rw [hns]; decide), if_pos (by trivial), ht, hd,
    if_neg (by rw [hwe]; decide)]

theorem lookaheadB_nl_or_nil {S : List Char}
    (hS : S = [] ∨ S.head? = some '\n') : lookaheadB S = true := by
  rcases hS with h | h
  · rw [h]; rfl
  · cases S with
    | nil => rfl
    | cons c t =>
      have hc : c = '\n' := by simpa using h
      simp [lookaheadB, hc]

theorem takeWhile_append_head_false {p : Char → Bool} {S : List Char}
    (hS : ∀ c, S.head? = some c → p c = false) :
    ∀ u : List Char, (u ++ S).takeWhile p = u.takeWhile p := by
  intro u
  induction u with
  | nil => simpa using takeWhile_eq_nil_of_head hS
  | cons b u' ih =>
    cases hb : p b with
    | true => simp [List.takeWhile_cons, hb, ih]
    | false => simp [List.takeWhile_cons, hb]

theorem dropWhile_append {p : Char → Bool} :
    ∀ (u S : List Char), (u ++ S).dropWhile p =
      if (u.dropWhile p).isEmpty then S.dropWhile p
      else u.dropWhile p ++ S := by
  intro u S
  induction u with
  | nil => simp
  | cons b u' ih =>
    cases hb : p b with
    | true => simp [List.dropWhile_cons, hb, ih]
    | false => simp [List.dropWhile_cons, hb]

theorem headIsColon_dropWhile_append {S : List Char}
    (hS : S = [] ∨ S.head? = some '\n') (u : List Char) :
    headIsColon ((u ++ S).dropWhile isWordChar) =
      headIsColon (u.dropWhile isWordChar) := by
  rw [dropWhile_append]
  by_cases he : (u.dropWhile isWordChar).isEmpty
  · rw [if_pos he]
    have h1 : S.dropWhile isWordChar = S := by
      apply dropWhile_eq_self_of_head
      intro c hc
      rcases hS with h | h
      · rw [h] at hc; simp at hc
      · rw [h] at hc
        have hcn : c = '\n' := by simpa using hc.symm
        subst hcn
        decide
    rw [h1]
    have h2 : u.dropWhile isWordChar = [] := by
      cases hu : u.dropWhile isWordChar with
      | nil => rfl
      | cons d x => rw [hu] at he; simp at he
    rw [h2]
    rcases hS with h | h
    · rw [h]
    · cases S with
      | nil => rfl
      | cons c t =>
        have hc : c = '\n' := by simpa using h
        simp [headIsColon, hc]
  · rw [if_neg he]
    cases hu : u.dropWhile isWordChar with
    | nil => rw [hu] at he; simp at he
    | cons d x => simp [headIsColon]

theorem slashColonB_append {v' S : List Char} (hv : v' ≠ [])
    (hS : S = [] ∨ S.head? = some '\n') :
    slashColonB (v' ++ S) = slashColonB v' := by
  cases v' with
  | nil => exact absurd rfl hv
  | cons a u =>
    have hword : ∀ c, S.head? = some c → isWordChar c = false := by
      intro c hc
      rcases hS with h | h
      · rw [h] at hc; simp at hc
      · rw [h] at hc
        have hcn : c = '\n' := by simpa using hc.symm
        subst hcn
        decide
    show slashColonB (a :: (u ++ S)) = slashColonB (a :: u)
    simp only [slashColonB]
    rw [takeWhile_append_head_false hword u,
      headIsColon_dropWhile_append hS u]

theorem lookaheadB_append_false {v' S : List Char} (hv : v' ≠ [])
    (hnl : v'.headD ' ' ≠ '\n') (hsc : slashColonB v' = false)
    (hS : S = [] ∨ S.head? = some '\n') :
    lookaheadB (v' ++ S) = false := by
  cases v' with
  | nil => exact absurd rfl hv
  | cons a u =>
    have ha : a ≠ '\n' := by simpa using hnl
    have h2 : slashColonB (a :: (u ++ S)) = false := by
      rw [← List.cons_append, slashColonB_append (by simp) hS]
      exact hsc
    show lookaheadB (a :: (u ++ S)) = false
    simp [lookaheadB, ha, h2]

theorem takeValue_append : ∀ (v S : List Char), v ≠ [] →
    (∀ c ∈ v, c ≠ '\n') → (∀ t ∈ v.tails, slashColonB t = false) →
    (S = [] ∨ S.head? = some '\n') → takeValue (v ++ S) = (v, S) := by
  intro v
  induction v with
  | nil => intro S hv; exact absurd rfl hv
  | cons a v' ih =>
    intro S _ hnl hsc hS
    cases v' with
    | nil =>
      show takeValue (a :: S) = ([a], S)
      simp [takeValue, lookaheadB_nl_or_nil hS]
    | cons b v'' =>
      have hlf : lookaheadB ((b :: v'') ++ S) = false := by
        refine @lookaheadB_append_false (b :: v'') S (by simp) ?_ ?_ hS
        · have := hnl b (by simp)
          simpa using this
        · apply hsc
          exact (List.mem_tails _ _).mpr (List.suffix_cons a (b :: v''))
      have ih' : takeValue ((b :: v'') ++ S) = (b :: v'', S) := by
        refine ih S (by simp) (fun c hc => hnl c (by simp [hc])) ?_ hS
        intro t ht
        refine hsc t ?_
        rw [List.tails_cons]
        exact List.mem_cons_of_mem _ ht
      have hlf2 : lookaheadB (b :: (v'' ++ S)) = false := hlf
      have ih2 : takeValue (b :: (v'' ++ S)) = (b :: v'', S) := ih'
      show takeValue (a :: (b :: (v'' ++ S))) = (a :: b :: v'', S)
      rw [takeValue, if_neg (by rw [hlf2]; decide), ih2]


theorem matchHere_of_matchToken {l dk rest2 : List Char}
    (h : matchToken l = some (dk, ':' :: rest2)) :
    matchHere l =
      match rest2.dropWhile isPySpace with
      | [] =>
        if (rest2.takeWhile isPySpace).isEmpty then none
        else some (dk, [(rest2.takeWhile isPySpace).getLastD ' '], [])
      | _ :: _ =>
        some (dk, (takeValue (rest2.dropWhile isPySpace)).1,
          (takeValue (rest2.dropWhile isPySpace)).2) := by
  unfold matchHere
  rw [h]
  rfl

theorem matchHere_line {dk v S : List Char}
    (hdk : (∃ c, dk = [c] ∧ symbolClass.contains c = true) ∨
           (∃ w, dk = '/' :: w ∧ w ≠ [] ∧ ∀ c ∈ w, isWordChar c = true))
    (hv : v ≠ []) (hvh : isPySpace (v.headD ' ') = false)
    (hnl : ∀ c ∈ v, c ≠ '\n')
    (hsc : ∀ t ∈ v.tails, slashColonB t = false)
    (hS : S = [] ∨ S.head? = some '\n') :
    matchHere (dk ++ ':' :: ' ' :: (v ++ S)) = some (dk, v, S) := by
  have htok : matchToken (dk ++ ':' :: ' ' :: (v ++ S)) =
      some (dk, ':' :: ' ' :: (v ++ S)) := by
    rcases hdk with ⟨c, hc, hcs⟩ | ⟨w, hw, hwne, hword⟩
    · rw [hc]
      exact matchToken_symbol hcs _
    · rw [hw]
      have : ('/' :: w) ++ ':' :: ' ' :: (v ++ S) =
          '/' :: (w ++ ':' :: ' '  :: (v ++ S)) := rfl
      rw [this]
      exact matchToken_slash hwne hword _
  obtain ⟨d, v', hdv⟩ : ∃ d v', v = d :: v' := by
    cases v with
    | nil => exact absurd rfl hv
    | cons d v' => exact ⟨d, v', rfl⟩
  have hdrop : (' ' :: (v ++ S)).dropWhile isPySpace = v ++ S := by
    rw [List.dropWhile_cons, if_pos (by decide)]
    apply dropWhile_eq_self_of_head
    intro c hc
    rw [hdv] at hc
    have hcd : c = d := by simpa using hc.symm
    rw [hcd]
    have : v.headD ' ' = d := by rw [hdv]; rfl
    rw [← this]
    exact hvh
  rw [matchHere_of_matchToken htok, hdrop]
  have htv : takeValue (v ++ S) = (v, S) :=
    takeValue_append v S hv hnl hsc hS
  rw [hdv]
  have htv2 : takeValue (d :: (v' ++ S)) = (d :: v', S) := by
    rw [hdv] at htv
    exact htv
  show some (dk, (takeValue (d :: (v' ++ S))).1,
      (takeValue (d :: (v' ++ S))).2) = some (dk, d :: v', S)
  rw [htv2]

theorem findAllAux_line_step {n : Nat} {dk v S : List Char}
    (hmh : matchHere (dk ++ ':' :: ' ' :: (v ++ S)) = some (dk, v, S))
    (hdk : dk ≠ []) :
    findAllAux (n + 1) (dk ++ ':' :: ' ' :: (v ++ S)) =
      (dk, v) :: findAllAux n S := by
  cases dk with
  | nil => exact absurd rfl hdk
  | cons c0 dk' =>
    have hmh2 : matchHere (c0 :: (dk' ++ ':' :: ' ' :: (v ++ S))) =
        some (c0 :: dk', v, S) := hmh
    show (match matchHere (c0 :: (dk' ++ ':' :: ' ' :: (v ++ S))) with
          | some (tok, w, rem) => (tok, w) :: findAllAux n rem
          | none => findAllAux n (dk' ++ ':' :: ' ' :: (v ++ S))) =
        (c0 :: dk', v) :: findAllAux n S
    rw [hmh2]

theorem findAllAux_newline_step {n : Nat} {J : List Char} :
    findAllAux (n + 1) ('\n' :: J) = findAllAux n J := by
  have hmt : matchToken ('\n' :: J) = none := by
    simp only [matchToken]
    rw [if_neg (by decide), if_neg (by decide)]
  have hmh : matchHere ('\n' :: J) = none := by
    unfold matchHere
    rw [hmt]
  show (match matchHere ('\n' :: J) with
        | some (tok, w, rem) => (tok, w) :: findAllAux n rem
        | none => findAllAux n J) = findAllAux n J
  rw [hmh]

theorem findAllAux_lines (b : Bool) :
    ∀ (T : List (String × String)) (fuel : Nat),
      (∀ p ∈ T, lineOK b p) →
      fuel ≥ (joinChars (T.map (lineChars b))).length →
      findAllAux fuel (joinChars (T.map (lineChars b))) =
        T.map fun p => ((displayToken b p.1).toList, p.2.toList) := by
  intro T
  induction T with
  | nil =>
    intro fuel _ _
    cases fuel <;> rfl
  | cons p T' ih =>
    intro fuel hok hfuel
    obtain ⟨hdk, hvne, hvh, hnl, hsc⟩ := hok p (by simp)
    have hdkne : (displayToken b p.1).toList ≠ [] := by
      rcases hdk with ⟨c, hc, -⟩ | ⟨w, hw, -, -⟩
      · rw [hc]; simp
      · rw [hw]; simp
    cases T' with
    | nil =>
      have hjoin : joinChars ((p :: ([] : List (String × String))).map
          (lineChars b)) = lineChars b p := rfl
      rw [hjoin] at hfuel ⊢
      have hlen : 1 ≤ (lineChars b p).length := by
        simp [lineChars]
        omega
      obtain ⟨n, hn⟩ : ∃ n, fuel = n + 1 := by
        cases fuel with
        | zero => omega
        | succ n => exact ⟨n, rfl⟩
      subst hn
      have hmh : matchHere ((displayToken b p.1).toList ++
          ':' :: ' ' :: (p.2.toList ++ ([] : List Char))) =
          some ((displayToken b p.1).toList, p.2.toList, []) :=
        matchHere_line hdk hvne hvh hnl hsc (Or.inl rfl)
      have hline : lineChars b p = (displayToken b p.1).toList ++
          ':' :: ' ' :: (p.2.toList ++ ([] : List Char)) := by
        simp [lineChars]
      rw [hline, findAllAux_line_step hmh hdkne]
      cases n <;> rfl
    | cons q T'' =>
      have hjoin : joinChars ((p :: q :: T'').map (lineChars b)) =
          lineChars b p ++
            '\n' :: joinChars ((q :: T'').map (lineChars b)) := rfl
      rw [hjoin] at hfuel ⊢
      set J := joinChars ((q :: T'').map (lineChars b)) with hJ
      have hlen : (lineChars b p).length = (displayToken b p.1).toList.length
          + 2 + p.2.toList.length := by
        simp [lineChars]
        omega
      have hlen2 : (lineChars b p ++ '\n' :: J).length =
          (lineChars b p).length + 1 + J.length := by
        simp
        omega
      obtain ⟨n, hn⟩ : ∃ n, fuel = n + 1 ∧ n ≥ 1 + J.length := by
        have h1 : 1 ≤ (lineChars b p).length := by omega
        cases fuel with
        | zero => omega
        | succ n => exact ⟨n, rfl, by omega⟩
      obtain ⟨hn1, hn2⟩ := hn
      subst hn1
      have hmh : matchHere ((displayToken b p.1).toList ++
          ':' :: ' ' :: (p.2.toList ++ ('\n' :: J))) =
          some ((displayToken b p.1).toList, p.2.toList, '\n' :: J) :=
        matchHere_line hdk hvne hvh hnl hsc (Or.inr rfl)
      have hline : lineChars b p ++ '\n' :: J =
          (displayToken b p.1).toList ++
            ':' :: ' ' :: (p.2.toList ++ ('\n' :: J)) := by
        simp [lineChars]
      rw [hline, findAllAux_line_step hmh hdkne]
      obtain ⟨m, hm⟩ : ∃ m, n = m + 1 := by
        cases n with
        | zero => omega
        | succ m => exact ⟨m, rfl⟩
      subst hm
      rw [findAllAux_newline_step]
      have := ih m (fun r hr => hok r (by simp [hr])) (by omega)
      rw [this]
      simp


theorem hasKey_of_lookup {m : List (String × String)} {k v : String}
    (h : m.lookup k = some v) : hasKey m k = true := by
  have hm := lookup_mem h
  simp only [hasKey, List.any_eq_true]
  exact ⟨(k, v), hm, by simp⟩

theorem lookup_isSome_of_hasKey {m : List (String × String)} {k : String}
    (h : hasKey m k = true) : (m.lookup k).isSome = true := by
  induction m with
  | nil => simp [hasKey] at h
  | cons p t ih =>
    obtain ⟨a, b⟩ := p
    by_cases hk : k = a
    · simp [List.lookup, hk]
    · rw [hasKey_cons, Bool.or_eq_true] at h
      rcases h with h1 | h1
      · exact absurd (of_decide_eq_true h1) (fun hh => hk hh.symm)
      · simpa [List.lookup, beq_false_of_ne hk] using ih h1

theorem displayToken_none {k : String} (b : Bool)
    (h : SLASH_TO_EMOJI.lookup k = none) : displayToken b k = k := by
  have hk : hasKey SLASH_TO_EMOJI k = false := by
    cases hhk : hasKey SLASH_TO_EMOJI k with
    | false => rfl
    | true =>
      have hs := lookup_isSome_of_hasKey hhk
      rw [h] at hs
      simp at hs
  simp [displayToken, hk]

theorem displayToken_some {k s : String}
    (h : SLASH_TO_EMOJI.lookup k = some s) : displayToken true k = s := by
  have hk : hasKey SLASH_TO_EMOJI k = true := hasKey_of_lookup h
  simp [displayToken, hk, h]

theorem displayToken_false (k : String) : displayToken false k = k := by
  simp [displayToken]

theorem pyStrip_eq_self {l : List Char}
    (h1 : isPySpace (l.headD ' ') = false)
    (h2 : isPySpace (l.getLastD ' ') = false) : pyStrip l = l := by
  unfold pyStrip
  have hd1 : l.dropWhile isPySpace = l := by
    apply dropWhile_eq_self_of_head
    intro c hc
    cases l with
    | nil => simp at hc
    | cons a t =>
      have hac : a = c := by simpa using hc
      rw [← hac]
      simpa using h1
  rw [hd1]
  have hd2 : l.reverse.dropWhile isPySpace = l.reverse := by
    apply dropWhile_eq_self_of_head
    intro c hc
    rw [List.head?_reverse] at hc
    cases hl : l.getLast? with
    | none => rw [hl] at hc; simp at hc
    | some d =>
      rw [hl] at hc
      have hcd : c = d := by simpa using hc.symm
      have hgl : l.getLastD ' ' = d := by
        rw [List.getLastD_eq_getLast?, hl]
        rfl
      rw [hcd, ← hgl]
      exact h2
  rw [hd2, List.reverse_reverse]

theorem CT_keys_not_slash :
    ∀ p ∈ CORE_TOKENS, p.1.toList.headD ' ' ≠ '/' := by decide

theorem CT_keys_nodup : (CORE_TOKENS.map Prod.fst).Nodup := by decide

theorem slash_inversion :
    SLASH_TO_EMOJI = CORE_TOKENS.map (fun p => (p.2, p.1)) := by decide

theorem lookup_none_head_ne :
    ∀ (m : List (String × String)) (k : String),
      (∀ p ∈ m, p.1.toList.headD ' ' ≠ '/') → k.toList.headD ' ' = '/' →
      m.lookup k = none := by
  intro m
  induction m with
  | nil => intro k _ _; rfl
  | cons p t ih =>
    intro k hall hk
    obtain ⟨a, b⟩ := p
    have hne : k ≠ a := by
      intro he
      refine hall (a, b) (by simp) ?_
      rw [← he]
      exact hk
    simp [List.lookup, beq_false_of_ne hne,
      ih k (fun q hq => hall q (by simp [hq])) hk]

theorem goodKeyB_unpack {k : String} (h : goodKeyB k = true) :
    ∃ w, k.toList = '/' :: w ∧ w ≠ [] ∧ ∀ c ∈ w, isWordChar c = true := by
  unfold goodKeyB at h
  split at h
  · next w heq =>
    rw [Bool.and_eq_true] at h
    obtain ⟨ha, hb⟩ := h
    refine ⟨w, heq, ?_, ?_⟩
    · intro hw
      rw [hw] at ha
      simp at ha
    · intro c hc
      rw [List.all_eq_true] at hb
      exact hb c hc
  · simp at h

theorem resolveToken_slashKey {k : String} (h : goodKeyB k = true) :
    resolveToken k = k := by
  obtain ⟨w, hw, -, -⟩ := goodKeyB_unpack h
  unfold resolveToken
  rw [lookup_none_head_ne CORE_TOKENS k CT_keys_not_slash (by rw [hw]; rfl)]

theorem resolveToken_emoji {k s : String}
    (h : SLASH_TO_EMOJI.lookup k = some s) : resolveToken s = k := by
  have hmem : (k, s) ∈ SLASH_TO_EMOJI := lookup_mem h
  rw [slash_inversion] at hmem
  obtain ⟨q, hq, hqe⟩ := List.mem_map.mp hmem
  obtain ⟨qa, qb⟩ := q
  simp only [Prod.mk.injEq] at hqe
  obtain ⟨h1, h2⟩ := hqe
  rw [h1, h2] at hq
  unfold resolveToken
  rw [mem_lookup_of_nodup CT_keys_nodup hq]

theorem goodValB_unpack {v : String} (h : goodValB v = true) :
    v.toList ≠ [] ∧ (∀ c ∈ v.toList, c ≠ '\n') ∧
    isPySpace (v.toList.headD ' ') = false ∧
    isPySpace (v.toList.getLastD ' ') = false ∧
    (∀ t ∈ v.toList.tails, slashColonB t = false) := by
  unfold goodValB at h
  simp only [Bool.and_eq_true] at h
  obtain ⟨⟨⟨⟨ha, hb⟩, hc⟩, hd⟩, he⟩ := h
  refine ⟨?_, ?_, ?_, ?_, ?_⟩
  · intro hv
    rw [hv] at ha
    simp at ha
  · intro c hcm
    rw [List.all_eq_true] at hb
    have := hb c hcm
    simpa using this
  · simpa using hc
  · simpa using hd
  · intro t ht
    have hsuf : t <:+ v.toList := (List.mem_tails _ _).mp ht
    cases t with
    | nil => rfl
    | cons c rest =>
      have hcmem : c ∈ v.toList := by
        obtain ⟨pre, hpre⟩ := hsuf
        rw [← hpre]
        exact List.mem_append.mpr (Or.inr (by simp))
      rw [List.all_eq_true] at he
      have hcs : c ≠ '/' := by simpa using he c hcmem
      simp [slashColonB, hcs]

theorem lineOK_of {b : Bool} {p : String × String}
    (hk : goodKeyB p.1 = true) (hv : goodValB p.2 = true)
    (hs : b = true → singleSymbolB p.1 = true) :
    lineOK b p ∧ resolveToken (displayToken b p.1) = p.1 := by
  obtain ⟨hv1, hv2, hv3, hv4, hv5⟩ := goodValB_unpack hv
  have hslash : (displayToken b p.1 = p.1) →
      ((∃ c, (displayToken b p.1).toList = [c] ∧
          symbolClass.contains c = true) ∨
        (∃ w, (displayToken b p.1).toList = '/' :: w ∧ w ≠ [] ∧
          ∀ c ∈ w, isWordChar c = true)) ∧
      resolveToken (displayToken b p.1) = p.1 := by
    intro hd
    obtain ⟨w, hw, hw1, hw2⟩ := goodKeyB_unpack hk
    rw [hd]
    exact ⟨Or.inr ⟨w, hw, hw1, hw2⟩, resolveToken_slashKey hk⟩
  cases hl : SLASH_TO_EMOJI.lookup p.1 with
  | none =>
    obtain ⟨hda, hdb⟩ := hslash (displayToken_none b hl)
    exact ⟨⟨hda, hv1, hv3, hv2, hv5⟩, hdb⟩
  | some sym =>
    cases b with
    | false =>
      obtain ⟨hda, hdb⟩ := hslash (displayToken_false p.1)
      exact ⟨⟨hda, hv1, hv3, hv2, hv5⟩, hdb⟩
    | true =>
      have hsingle : singleSymbolB p.1 = true := hs rfl
      unfold singleSymbolB at hsingle
      rw [hl] at hsingle
      have hd : displayToken true p.1 = sym := displayToken_some hl
      obtain ⟨c, hc1, hc2⟩ : ∃ c, sym.toList = [c] ∧
          symbolClass.contains c = true := by
        split at hsingle
        · next hseq => simp at hseq
        · next s2 hseq =>
          have hss : sym = s2 := by simpa using hseq
          subst hss
          split at hsingle
          · next c heq => exact ⟨c, heq, by simpa using hsingle⟩
          · simp at hsingle
      refine ⟨⟨Or.inl ⟨c, by rw [hd]; exact hc1, hc2⟩,
        hv1, hv3, hv2, hv5⟩, ?_⟩
      rw [hd]
      exact resolveToken_emoji hl

theorem foldl_congr_mem {α β : Type} (f g : β → α → β) :
    ∀ (l : List α) (init : β), (∀ acc, ∀ a ∈ l, f acc a = g acc a) →
      l.foldl f init = l.foldl g init := by
  intro l
  induction l with
  | nil => intro init _; rfl
  | cons a t ih =>
    intro init h
    rw [List.foldl_cons, List.foldl_cons, h init a (by simp)]
    exact ih _ (fun acc c hc => h acc c (by simp [hc]))

theorem foldl_dictInsert_fresh :
    ∀ (T acc : List (String × String)),
      (∀ p ∈ T, hasKey acc p.1 = false) → (T.map Prod.fst).Nodup →
      T.foldl (fun m p => dictInsert m p.1 p.2) acc = acc ++ T := by
  intro T
  induction T with
  | nil => intro acc _ _; simp
  | cons p t ih =>
    intro acc hfresh hnodup
    rw [List.map_cons, List.nodup_cons] at hnodup
    obtain ⟨hn1, hn2⟩ := hnodup
    have h1 : dictInsert acc p.1 p.2 = acc ++ [p] := by
      unfold dictInsert
      rw [if_neg (by rw [hfresh p (by simp)]; decide)]
    have hfr : ∀ q ∈ t, hasKey (acc ++ [p]) q.1 = false := by
      intro q hq
      rw [hasKey_append]
      have hq1 : hasKey acc q.1 = false := hfresh q (by simp [hq])
      have hq2 : hasKey [p] q.1 = false := by
        simp only [hasKey, List.any_cons, List.any_nil, Bool.or_false]
        have hne : p.1 ≠ q.1 := by
          intro he
          exact hn1 (List.mem_map.mpr ⟨q, hq, he.symm⟩)
        simp [hne]
      rw [hq1, hq2]
      rfl
    rw [List.foldl_cons, h1, ih (acc ++ [p]) hfr hn2, List.append_assoc]
    rfl

theorem roundtrip_general (b : Bool) (T : List (String × String))
    (hnodup : (T.map Prod.fst).Nodup)
    (hgood : ∀ p ∈ T, goodKeyB p.1 = true ∧ goodValB p.2 = true)
    (hsym : b = true → ∀ p ∈ T, singleSymbolB p.1 = true) :
    parse_tokens (format_message T b) = T := by
  have hline : ∀ p ∈ T,
      lineOK b p ∧ resolveToken (displayToken b p.1) = p.1 :=
    fun p hp =>
      lineOK_of (hgood p hp).1 (hgood p hp).2 (fun hb => hsym hb p hp)
  have hfind : pythonFindall (format_message T b).toList =
      T.map fun p => ((displayToken b p.1).toList, p.2.toList) := by
    unfold pythonFindall
    rw [format_message_toList]
    exact findAllAux_lines b T _ (fun p hp => (hline p hp).1) (le_refl _)
  unfold parse_tokens
  rw [hfind, List.foldl_map]
  have hpt : ∀ (acc : List (String × String)), ∀ p ∈ T,
      dictInsert acc
        (resolveToken (String.mk
          ((fun p => ((displayToken b p.1).toList, p.2.toList)) p).1))
        (String.mk (pyStrip
          ((fun p => ((displayToken b p.1).toList, p.2.toList)) p).2)) =
      dictInsert acc p.1 p.2 := by
    intro acc p hp
    have hr : resolveToken (String.mk ((displayToken b p.1).toList)) =
        p.1 := (hline p hp).2
    obtain ⟨-, -, hh, hl2, -⟩ := goodValB_unpack (hgood p hp).2
    have hstrip : String.mk (pyStrip p.2.toList) = p.2 := by
      rw [pyStrip_eq_self hh hl2]
      rfl
    rw [show ((fun p => ((displayToken b p.1).toList, p.2.toList)) p).1 =
        (displayToken b p.1).toList from rfl]
    rw [show ((fun p => ((displayToken b p.1).toList, p.2.toList)) p).2 =
        p.2.toList from rfl]
    rw [hr, hstrip]
  rw [foldl_congr_mem _ (fun m (p : String × String) =>
    dictInsert m p.1 p.2) T [] hpt]
  rw [foldl_dictInsert_fresh T [] (fun p _ => by simp [hasKey]) hnodup]
  rfl

/-- C4: counterexample — the mapping `{/act: "x\ny"}` satisfies the
claim's hypothesis (neither of its value's lines starts with a registered
symbol or a `/word:` token), yet the round trip fails in both notations:
the value is truncated to its first line on re-parsing. -/
theorem c4_counterexample :
    specValueLinesSafe [("/act", "x\ny")] = true ∧
    parse_tokens (format_message [("/act", "x\ny")] true) ≠
      [("/act", "x\ny")] ∧
    parse_tokens (format_message [("/act", "x\ny")] false) ≠
      [("/act", "x\ny")] := by
  refine ⟨by decide, by decide, by decide⟩

/-- C4 (amended): the round trip `tokenize(format(T, b)) = T` holds, in
both notations, for every mapping `T` with distinct canonical `/word`
keys whose values are nonempty, single-line, free of leading and trailing
whitespace, and free of the `/` character (so no embedded `/word:`
segment start in any alphabet — Python's `\w` is Unicode-aware); in
symbol notation each key's registered symbol must moreover be a
single-character symbol (multi-code-point symbols such as `🏔️`
(base + U+FE0F) or `🧠🧠` do not round-trip). -/
theorem c4_amended (T : List (String × String))
    (hnodup : (T.map Prod.fst).Nodup)
    (hgood : ∀ p ∈ T, goodKeyB p.1 = true ∧ goodValB p.2 = true) :
    parse_tokens (format_message T false) = T ∧
    ((∀ p ∈ T, singleSymbolB p.1 = true) →
      parse_tokens (format_message T true) = T) :=
  ⟨roundtrip_general false T hnodup hgood (fun h => absurd h (by decide)),
   fun hs => roundtrip_general true T hnodup hgood (fun _ => hs)⟩

/-- C4 witness: a concrete two-entry mapping round-trips in both
notations. -/
theorem c4_witness :
    parse_tokens (format_message
      [("/act", "ship it"), ("/context", "demo")] false) =
      [("/act", "ship it"), ("/context", "demo")] ∧
    parse_tokens (format_message
      [("/act", "ship it"), ("/context", "demo")] true) =
      [("/act", "ship it"), ("/context", "demo")] := by
  have h := c4_amended [("/act", "ship it"), ("/context", "demo")]
    (by decide) (by decide)
  exact ⟨h.1, h.2 (by decide)⟩


end HyRI
